import Mathlib

/-!
A shallow embedding of the regular-expression engine in `regex.py`
(infix-to-postfix conversion, Thompson-style NFA construction, and
NFA simulation), together with theorems checking the specified
properties against this embedding.

Modelling conventions:
* Python's mutable `RegexGraphState` objects are represented by an
  arena: an association list from state id (the value of the global
  `RegexGraphState._state_id` counter at allocation time) to the
  state's payload.  Mutation of a state's `out` list becomes a
  functional update of the arena at that id.
* The global id counter is threaded explicitly (`ctr` / `seed`), so
  that dependence of results on the counter can be stated.
* Python's unbounded recursion in `add_state` is modelled with
  explicit fuel (one unit per nested call); `none` means the given
  recursion budget was exhausted.  The source function has no
  visited-set guard, and this is modelled faithfully.
* Exceptions raised during parsing (`IndexError` on popping an empty
  stack, the explicit `raise Exception()` for a non-singleton final
  stack) are modelled by `Option.none` from the parser.
-/

namespace RegexSpec

/-- The `c` field of `RegexGraphState`: a literal character, or the
`_SPLIT` sentinel, or the `_MATCH` sentinel. -/
inductive SChar where
  | lit (c : Char)
  | splitS
  | matchS
deriving DecidableEq, Repr

/-- Payload of a `RegexGraphState`: its `c` field and its `out` list
(state ids it points to). -/
structure St where
  c : SChar
  out : List Nat
deriving DecidableEq, Repr

/-- The heap of allocated states: id ↦ payload, in allocation order. -/
abbrev Arena := List (Nat × St)

/-- `RegexGraphFragment`: a start state id and the list of dangling
out-state ids. -/
structure Frag where
  start : Nat
  out_states : List Nat
deriving DecidableEq, Repr

/-- Dereference a state id (Python: following an object reference). -/
def lookupSt (a : Arena) (i : Nat) : Option St :=
  (a.find? (fun p => p.1 == i)).map Prod.snd

/-- Allocate a fresh state (the `RegexGraphState.__init__` body): the
state gets the current counter value as id and the counter advances. -/
def newState (a : Arena) (ctr : Nat) (c : SChar) (out : List Nat) :
    Arena × Nat × Nat :=
  (a ++ [(ctr, ⟨c, out⟩)], ctr, ctr + 1)

/-- `RegexGraphFragment.set_out`: for every state in `outs`, the
state's `out` list is cleared and then the single id `target` is
appended (`state.out.clear(); state.out.append(next_frag.start)`). -/
def setOutA (a : Arena) (outs : List Nat) (target : Nat) : Arena :=
  a.map (fun p => if p.1 ∈ outs then (p.1, ⟨p.2.c, [target]⟩) else p)

/-- The `op_precedence` table of `infix_to_postfix` as a membership
test: `c in op_precedence`. -/
def isOpChar (c : Char) : Bool :=
  c == '|' || c == '.' || c == '?' || c == '+' || c == '*'

/-- The `op_precedence` table: `|` ↦ 0, `.` ↦ 1, `?`/`+`/`*` ↦ 2.
Only ever consulted on operator characters. -/
def precOf (c : Char) : Nat :=
  if c == '|' then 0 else if c == '.' then 1 else 2

/-- `add_operator` of `infix_to_postfix`: pop operators of strictly
higher precedence onto the output, then push `op`.  Stacks are lists
with the top at the head; the returned pair is (output, operators). -/
def addOperator (op : Char) (output operators : List Char) :
    List Char × List Char :=
  match operators with
  | [] => (output, [op])
  | last :: rest =>
    if precOf op < precOf last then addOperator op (output ++ [last]) rest
    else (output, op :: last :: rest)

/-- The scanning loop of `infix_to_postfix`, with the current index
`i` into the full string `s` (the index survives the jump performed
after a parenthesized group, including the look-back at `s[i-1]`).
Reaching `)` or the end of the string flushes the operator stack. -/
def i2pLoop (s : List Char) (i : Nat) (output operators : List Char) :
    List Char :=
  if h : i < s.length then
    let ch := s[i]
    if isOpChar ch then
      let p := addOperator ch output operators
      i2pLoop s (i + 1) p.1 p.2
    else if ch = '(' then
      let p := if 0 < i ∧ isOpChar (s.getD (i - 1) '(') = false then
          addOperator '.' output operators
        else (output, operators)
      let sub := i2pLoop (s.drop (i + 1)) 0 [] []
      i2pLoop s (i + sub.length + 1) (p.1 ++ sub) p.2
    else if ch = ')' then
      output ++ operators
    else
      let p := if 0 < i ∧ isOpChar (s.getD (i - 1) '(') = false then
          addOperator '.' output operators
        else (output, operators)
      i2pLoop s (i + 1) (p.1 ++ [ch]) p.2
  else output ++ operators
termination_by 2 * s.length + (s.length - i)
decreasing_by
  · omega
  · simp only [List.length_drop]; omega
  · omega
  · omega

/-- `infix_to_postfix`: convert an infix pattern to a postfix token
list, inserting the implicit concatenation operator `.`. -/
def infixToPostfix (s : List Char) : List Char :=
  i2pLoop s 0 [] []

/-- The body of one iteration of the token loop of `parse_regex`:
apply a single postfix token to the fragment stack, allocating states
in the arena.  `none` models an exception (popping an empty stack). -/
def applyToken (a : Arena) (ctr : Nat) (stack : List Frag) (ch : Char) :
    Option (Arena × Nat × List Frag) :=
  if ch = '.' then
    match stack with
    | f2 :: f1 :: st =>
      some (setOutA a f1.out_states f2.start, ctr,
        ⟨f1.start, f2.out_states⟩ :: st)
    | _ => none
  else if ch = '+' then
    match stack with
    | f :: st =>
      let t := newState a ctr SChar.splitS [f.start]
      some (t.1, t.2.2, ⟨f.start, [t.2.1]⟩ :: st)
    | _ => none
  else if ch = '?' then
    match stack with
    | f :: st =>
      let t := newState a ctr SChar.splitS [f.start]
      some (t.1, t.2.2, ⟨t.2.1, t.2.1 :: f.out_states⟩ :: st)
    | _ => none
  else if ch = '*' then
    match stack with
    | f :: st =>
      let t := newState a ctr SChar.splitS [f.start]
      some (setOutA t.1 f.out_states t.2.1, t.2.2, ⟨t.2.1, [t.2.1]⟩ :: st)
    | _ => none
  else if ch = '|' then
    match stack with
    | f2 :: f1 :: st =>
      let t := newState a ctr SChar.splitS [f1.start, f2.start]
      some (t.1, t.2.2, ⟨t.2.1, f1.out_states ++ f2.out_states⟩ :: st)
    | _ => none
  else
    let t := newState a ctr (SChar.lit ch) []
    some (t.1, t.2.2, ⟨t.2.1, [t.2.1]⟩ :: stack)

/-- The token loop of `parse_regex`: fold the postfix tokens over a
stack of fragments; a raised exception (`none`) aborts the loop. -/
def parsePostfixLoop : Arena → Nat → List Frag → List Char →
    Option (Arena × Nat × List Frag)
  | a, ctr, stack, [] => some (a, ctr, stack)
  | a, ctr, stack, ch :: rest =>
    match applyToken a ctr stack ch with
    | none => none
    | some (a', ctr', stack') => parsePostfixLoop a' ctr' stack' rest

/-- `parse_regex`, with the global id counter threaded from `seed`:
convert to postfix, fold the tokens, require exactly one remaining
fragment, allocate the match state and connect the fragment's
dangling outputs to it.  Returns (arena, start id, final counter);
`none` models a raised exception. -/
def parseRegexSeed (seed : Nat) (regex : List Char) :
    Option (Arena × Nat × Nat) :=
  match parsePostfixLoop [] seed [] (infixToPostfix regex) with
  | some (a, ctr, [f]) =>
    let t := newState a ctr SChar.matchS []
    some (setOutA t.1 f.out_states t.2.1, f.start, t.2.2)
  | _ => none

/-- Python's `set.add`: add an id to the state set unless present.
State sets are represented as duplicate-free lists of ids. -/
def insertId (x : Nat) (l : List Nat) : List Nat :=
  if x ∈ l then l else l ++ [x]

/-- `add_state`: expand a state into the set of next states,
recursing through both edges of a split.  The source has no
visited-set guard, so the recursion is bounded only by `fuel`
(one unit per nested call); `none` = recursion budget exhausted. -/
def addState (a : Arena) : Nat → Nat → List Nat → Option (List Nat)
  | 0, _, _ => none
  | fuel + 1, s, next =>
    match lookupSt a s with
    | none => none
    | some st =>
      if st.c = SChar.splitS then
        st.out.foldlM (fun acc o => addState a fuel o acc) next
      else some (insertId s next)

/-- The loop `for out in out_states: add_state(out, next_states)`,
each call with recursion budget `fuel`. -/
def addList (a : Arena) (fuel : Nat) (outs : List Nat) (next : List Nat) :
    Option (List Nat) :=
  outs.foldlM (fun acc o => addState a fuel o acc) next

/-- The loop body of `step`: for each state in the set whose `c`
equals the input character, expand each of its `out` states into the
next set. -/
def stepFold (a : Arena) (fuel : Nat) (char : Char) :
    List Nat → List Nat → Option (List Nat)
  | [], next => some next
  | s :: ss, next =>
    match lookupSt a s with
    | none => none
    | some st =>
      if st.c = SChar.lit char then
        match addList a fuel st.out next with
        | none => none
        | some next' => stepFold a fuel char ss next'
      else stepFold a fuel char ss next

/-- `step`: one character-driven transition of the state set. -/
def step (a : Arena) (fuel : Nat) (states : List Nat) (char : Char) :
    Option (List Nat) :=
  stepFold a fuel char states []

/-- The character loop of `match_str`: apply `step` for each input
character in order. -/
def matchRun (a : Arena) (fuel : Nat) :
    List Nat → List Char → Option (List Nat)
  | states, [] => some states
  | states, ch :: cs =>
    match step a fuel states ch with
    | none => none
    | some states' => matchRun a fuel states' cs

/-- The final scan of `match_str`: is some state in the set the match
state? -/
def isMatchState (a : Arena) (s : Nat) : Bool :=
  match lookupSt a s with
  | some st => st.c == SChar.matchS
  | none => false

/-- Errors of the embedded pipeline: a raised parse exception, or an
exhausted recursion budget (modelling non-termination). -/
inductive MErr where
  | parseErr
  | fuelErr
deriving DecidableEq, Repr

/-- Run the simulation from a given state set over the input and
report acceptance. -/
def runOutcome (a : Arena) (fuel : Nat) (states : List Nat)
    (input : List Char) : Except MErr Bool :=
  match matchRun a fuel states input with
  | none => Except.error MErr.fuelErr
  | some fin => Except.ok (fin.any (isMatchState a))

/-- `match_str` with the global id counter starting at `seed`:
compile the pattern, epsilon-expand the start state, run the input,
and check for the match state. -/
def matchStrSeed (seed fuel : Nat) (input regex : List Char) :
    Except MErr Bool :=
  match parseRegexSeed seed regex with
  | none => Except.error MErr.parseErr
  | some (a, start, _) =>
    match addState a fuel start [] with
    | none => Except.error MErr.fuelErr
    | some init => runOutcome a fuel init input

/-- `match_str` as called on a fresh interpreter (counter at 0). -/
def matchStr (fuel : Nat) (input regex : List Char) : Except MErr Bool :=
  matchStrSeed 0 fuel input regex

/-- The arena produced by compiling the pattern `(ab**)+` (ids 0-5).
States 2 and 3 are splits pointing at each other: an epsilon-only
cycle reachable from state 0 on consuming `a`. -/
def cycleArena : Arena :=
  [(0, ⟨SChar.lit 'a', [3]⟩), (1, ⟨SChar.lit 'b', [2]⟩),
   (2, ⟨SChar.splitS, [3]⟩), (3, ⟨SChar.splitS, [2]⟩),
   (4, ⟨SChar.splitS, [5]⟩), (5, ⟨SChar.matchS, []⟩)]

/-- An operand character: neither an operator of the precedence
table nor a parenthesis. -/
def plainChar (c : Char) : Bool :=
  !(isOpChar c) && !(c == '(') && !(c == ')')

/-- The arena after pushing a run of literal characters, ids from
`ctr` upward, none yet connected. -/
def litArena (ctr : Nat) : List Char → Arena
  | [] => []
  | c :: cs => (ctr, ⟨SChar.lit c, []⟩) :: litArena (ctr + 1) cs

/-- The fragment stack after pushing a run of literal characters on
top of `st` (top of stack at the head). -/
def litStackAux (ctr : Nat) : List Char → List Frag → List Frag
  | [], st => st
  | _ :: cs, st => litStackAux (ctr + 1) cs (⟨ctr, [ctr]⟩ :: st)

/-- `k` single-literal fragments with ids `ctr + k - 1` down to
`ctr`, top of stack first. -/
def stackRange (ctr : Nat) : Nat → List Frag
  | 0 => []
  | k + 1 => ⟨ctr + k, [ctr + k]⟩ :: stackRange ctr k

/-- The arena of a literal pattern `s` in which states `b ≤ i` (with
a successor) are already linked to `i + 1` and the others are not yet
connected. -/
def chainArena (s : List Char) (b : Nat) : Arena :=
  (List.range s.length).map
    (fun i => (i, ⟨SChar.lit (s.getD i 'a'),
      if b ≤ i ∧ i + 1 < s.length then [i + 1] else []⟩))

/-- The finished NFA of a literal pattern: a chain of literal states
`0, …, n-1` each pointing to its successor, ending in the match
state `n`. -/
def fullChain (s : List Char) : Arena :=
  (List.range s.length).map
    (fun i => (i, ⟨SChar.lit (s.getD i 'a'), [i + 1]⟩)) ++
    [(s.length, ⟨SChar.matchS, []⟩)]

/-- Rename every state id in a state payload by adding `d` (the
effect on a graph of starting the global id counter `d` later). -/
def shiftSt (d : Nat) (st : St) : St :=
  ⟨st.c, st.out.map (· + d)⟩

/-- Rename every id in an arena by adding `d`. -/
def shiftArena (d : Nat) (a : Arena) : Arena :=
  a.map (fun p => (p.1 + d, shiftSt d p.2))

/-- Rename every id in a fragment by adding `d`. -/
def shiftFrag (d : Nat) (f : Frag) : Frag :=
  ⟨f.start + d, f.out_states.map (· + d)⟩

/-! ## Lemmas: concrete postfix conversions -/

lemma i2p_star : infixToPostfix ['a', '*'] = ['a', '*'] := by
  simp [infixToPostfix, i2pLoop, addOperator, isOpChar]

lemma i2p_plus : infixToPostfix ['a', '+'] = ['a', '+'] := by
  simp [infixToPostfix, i2pLoop, addOperator, isOpChar]

lemma i2p_opt : infixToPostfix ['a', '?', 'b'] = ['a', 'b', '?'] := by
  simp [infixToPostfix, i2pLoop, addOperator, isOpChar]

lemma i2p_nil : infixToPostfix [] = [] := by
  simp [infixToPostfix, i2pLoop]

lemma i2p_open : infixToPostfix ['(', 'a'] = ['a'] := by
  simp [infixToPostfix, i2pLoop, addOperator, isOpChar]

lemma i2p_alt : infixToPostfix ['(', 'a', '|', 'b', ')', 'c'] = ['a', 'b', '|'] := by
  simp [infixToPostfix, i2pLoop, addOperator, isOpChar]

lemma i2p_nested :
    infixToPostfix ['(', 'a', 'b', '*', '*', ')', '+'] =
      ['a', 'b', '*', '*', '.', '+'] := by
  simp [infixToPostfix, i2pLoop, addOperator, isOpChar, precOf]

/-- In `cycleArena`, epsilon-closure expansion of state 2 or state 3
fails for every recursion budget: the two splits form an epsilon
cycle and `add_state` has no visited guard. -/
lemma c4aux : ∀ fuel next, addState cycleArena fuel 2 next = none ∧
    addState cycleArena fuel 3 next = none := by
  intro fuel
  induction fuel with
  | zero => exact fun next => ⟨rfl, rfl⟩
  | succ n ih =>
    intro next
    have l2 : lookupSt cycleArena 2 = some ⟨SChar.splitS, [3]⟩ := rfl
    have l3 : lookupSt cycleArena 3 = some ⟨SChar.splitS, [2]⟩ := rfl
    refine ⟨?_, ?_⟩
    · have h3 := (ih next).2
      simp [addState, l2, h3]
    · have h2 := (ih next).1
      simp [addState, l3, h2]

/-! ## Claim theorems (concrete behaviours) -/

/-- C1: the claim states that `RegexGraphFragment.set_out` appends
the new transition to each output slot's state without discarding
transitions already recorded there, so that a Split's construction
time loop-back edge survives the later connection.  In the code
`set_out` clears the list first: for pattern `a*`, just before the
final connection the split (id 1) holds its loop-back edge `[0]`,
and after connecting the fragment to the match state the split holds
only `[2]` — the loop-back edge was discarded. -/
theorem c1_set_out_overwrites :
    parsePostfixLoop [] 0 [] (infixToPostfix ['a', '*']) =
      some ([(0, ⟨SChar.lit 'a', [1]⟩), (1, ⟨SChar.splitS, [0]⟩)], 2,
        [⟨1, [1]⟩]) ∧
    parseRegexSeed 0 ['a', '*'] =
      some ([(0, ⟨SChar.lit 'a', [1]⟩), (1, ⟨SChar.splitS, [2]⟩),
        (2, ⟨SChar.matchS, []⟩)], 1, 3) := by
  constructor
  · simp only [i2p_star]; rfl
  · simp only [parseRegexSeed, i2p_star]; rfl

/-- C2: the claim states `a*` accepts exactly zero-or-more `a`s, in
particular `match_str("aaaa", "a*") = true`.  In the code the star
loop edge is destroyed by the final `set_out`, so `aaaa` (and every
non-empty string) is rejected; only the empty string is accepted. -/
theorem c2_star_examples :
    (∀ g : Nat, matchStr (g + 2) [] ['a', '*'] = Except.ok true) ∧
    (∀ g : Nat, matchStr (g + 2) ['a', 'a', 'a', 'a'] ['a', '*'] =
      Except.ok false) ∧
    (∀ g : Nat, matchStr (g + 2) ['a', 'a', 'b'] ['a', '*'] =
      Except.ok false) := by
  refine ⟨?_, ?_, ?_⟩ <;>
    (intro g; simp only [matchStr, matchStrSeed, parseRegexSeed, i2p_star]; rfl)

/-- C3: the claim states `a+` accepts exactly one-or-more `a`s and
that the `+` construction connects the popped fragment's dangling
outputs to the new Split.  In the code the `+` case never connects
them (state 0 keeps an empty `out` list), so `a` and `aaa` are
rejected; every input is rejected. -/
theorem c3_plus_examples :
    parseRegexSeed 0 ['a', '+'] =
      some ([(0, ⟨SChar.lit 'a', []⟩), (1, ⟨SChar.splitS, [2]⟩),
        (2, ⟨SChar.matchS, []⟩)], 0, 3) ∧
    (∀ g : Nat, matchStr (g + 1) [] ['a', '+'] = Except.ok false) ∧
    (∀ g : Nat, matchStr (g + 1) ['a'] ['a', '+'] = Except.ok false) ∧
    (∀ g : Nat, matchStr (g + 1) ['a', 'a', 'a'] ['a', '+'] =
      Except.ok false) := by
  refine ⟨by simp only [parseRegexSeed, i2p_plus]; rfl, ?_, ?_, ?_⟩ <;>
    (intro g; simp only [matchStr, matchStrSeed, parseRegexSeed, i2p_plus]; rfl)

/-- C4: the claim states epsilon-closure expansion terminates for
every NFA the builder can produce.  The builder can produce an
epsilon-only cycle between two Split states (pattern `(ab**)+`,
where the scan desynchronisation and the `+` case's discarded
outputs leave splits 2 and 3 pointing at each other), and
`add_state` has no visited guard: on input `a` the expansion exhausts
every recursion budget. -/
theorem c4_add_state_diverges :
    parseRegexSeed 0 ['(', 'a', 'b', '*', '*', ')', '+'] =
      some (cycleArena, 0, 6) ∧
    ∀ fuel, matchStr fuel ['a'] ['(', 'a', 'b', '*', '*', ')', '+'] =
      Except.error MErr.fuelErr := by
  have hp : parseRegexSeed 0 ['(', 'a', 'b', '*', '*', ')', '+'] =
      some (cycleArena, 0, 6) := by
    simp only [parseRegexSeed, i2p_nested]; rfl
  refine ⟨hp, ?_⟩
  intro fuel
  cases fuel with
  | zero => simp only [matchStr, matchStrSeed, hp]; rfl
  | succ n =>
    have h3 := (c4aux (n + 1) []).2
    have l0 : lookupSt cycleArena 0 = some ⟨SChar.lit 'a', [3]⟩ := rfl
    simp only [matchStr, matchStrSeed, hp]
    have hinit : addState cycleArena (n + 1) 0 [] = some [0] := rfl
    simp only [hinit]
    simp [runOutcome, matchRun, step, stepFold, addList, l0, h3]

/-- C5: the claim states that a pattern with an unmatched `(` such as
`(a` fails with a syntax error and never yields a compiled NFA or a
match result.  In the code the unmatched `(` is silently treated as
end of string: `(a` compiles to the NFA of `a` and
`match_str("a", "(a")` returns `true`. -/
theorem c5_unmatched_paren_silently_parses :
    infixToPostfix ['(', 'a'] = ['a'] ∧
    parseRegexSeed 0 ['(', 'a'] =
      some ([(0, ⟨SChar.lit 'a', [1]⟩), (1, ⟨SChar.matchS, []⟩)], 0, 2) ∧
    (∀ g : Nat, matchStr (g + 1) ['a'] ['(', 'a'] = Except.ok true) := by
  refine ⟨i2p_open, by simp only [parseRegexSeed, i2p_open]; rfl, ?_⟩
  intro g
  simp only [matchStr, matchStrSeed, parseRegexSeed, i2p_open]; rfl

/-- C6: the claim states the empty pattern yields an empty postfix
sequence (true), that `parse_regex("")` succeeds with a trivially
accepting NFA, and that it matches exactly the empty input.  In the
code the empty postfix leaves the fragment stack empty and the
final stack check raises, so `match_str` raises for every input
instead of returning a boolean. -/
theorem c6_empty_pattern :
    infixToPostfix [] = [] ∧
    parseRegexSeed 0 [] = none ∧
    (∀ fuel, ∀ input : List Char,
      matchStr fuel input [] = Except.error MErr.parseErr) := by
  refine ⟨i2p_nil, by simp only [parseRegexSeed, i2p_nil]; rfl, ?_⟩
  intro fuel input
  simp only [matchStr, matchStrSeed, parseRegexSeed, i2p_nil]; rfl

/-- C8: the claim states `a?b` compiles (implicit concatenation
between the quantified `a?` and `b`) and matches `b` and `ab` but
not `aab`.  In the code no concatenation operator is inserted after
a quantifier (the look-back only skips the dot when the previous
character is an operator), so the postfix is `ab?`, the build leaves
two fragments on the stack, and compilation raises for every
input. -/
theorem c8_optional_concat_missing :
    infixToPostfix ['a', '?', 'b'] = ['a', 'b', '?'] ∧
    parseRegexSeed 0 ['a', '?', 'b'] = none ∧
    (∀ fuel, ∀ input : List Char,
      matchStr fuel input ['a', '?', 'b'] = Except.error MErr.parseErr) := by
  refine ⟨i2p_opt, by simp only [parseRegexSeed, i2p_opt]; rfl, ?_⟩
  intro fuel input
  simp only [matchStr, matchStrSeed, parseRegexSeed, i2p_opt]; rfl

/-- C9: the claim states that after a parenthesized group the parent
scan resumes exactly past the matching `)`, so the `c` in `(a|b)c`
is still processed.  In the code the parent advances by the length
of the group's postfix token list (not by the characters consumed),
so for `(a|b)c` the scan lands on `)` and stops: the postfix is
`ab|`, the `c` is dropped, input `a` is accepted and `ac` is
rejected. -/
theorem c9_group_scan_desync :
    infixToPostfix ['(', 'a', '|', 'b', ')', 'c'] = ['a', 'b', '|'] ∧
    (∀ g : Nat, matchStr (g + 2) ['a'] ['(', 'a', '|', 'b', ')', 'c'] =
      Except.ok true) ∧
    (∀ g : Nat, matchStr (g + 2) ['a', 'c'] ['(', 'a', '|', 'b', ')', 'c'] =
      Except.ok false) := by
  refine ⟨i2p_alt, ?_, ?_⟩ <;>
    (intro g; simp only [matchStr, matchStrSeed, parseRegexSeed, i2p_alt]; rfl)

/-! ## C7: literal (operator-free) patterns match exactly themselves -/

lemma plainChar_elim {c : Char} (h : plainChar c = true) :
    isOpChar c = false ∧ ¬(c = '(') ∧ ¬(c = ')') := by
  simp only [plainChar, Bool.and_eq_true, Bool.not_eq_true'] at h
  refine ⟨h.1.1, ?_, ?_⟩
  · intro hc; subst hc; simp at h
  · intro hc; subst hc; simp at h

lemma plainChar_ops {c : Char} (h : plainChar c = true) :
    ¬(c = '.') ∧ ¬(c = '+') ∧ ¬(c = '?') ∧ ¬(c = '*') ∧ ¬(c = '|') := by
  have hop := (plainChar_elim h).1
  simp only [isOpChar, Bool.or_eq_false_iff, beq_eq_false_iff_ne, ne_eq] at hop
  exact ⟨hop.1.1.1.2, hop.1.2, hop.1.1.2, hop.2, hop.1.1.1.1⟩

lemma addOperator_dot (out : List Char) (m : Nat) :
    addOperator '.' out (List.replicate m '.') =
      (out, List.replicate (m + 1) '.') := by
  cases m with
  | zero => rfl
  | succ k => simp [addOperator, precOf, List.replicate_succ]

lemma i2pLoop_plain_aux (s : List Char)
    (hp : ∀ c ∈ s, plainChar c = true) :
    ∀ k i, s.length - i = k → 1 ≤ i → i ≤ s.length →
      i2pLoop s i (s.take i) (List.replicate (i - 1) '.') =
        s ++ List.replicate (s.length - 1) '.' := by
  intro k
  induction k with
  | zero =>
    intro i hk h1 h2
    have hi : i = s.length := by omega
    subst hi
    rw [i2pLoop, dif_neg (by omega)]
    simp
  | succ k ih =>
    intro i hk h1 h2
    have hi : i < s.length := by omega
    have hprev : i - 1 < s.length := by omega
    obtain ⟨hop, hlp, hrp⟩ := plainChar_elim (hp _ (List.getElem_mem hi))
    obtain ⟨hop', -, -⟩ := plainChar_elim (hp _ (List.getElem_mem hprev))
    have hgd : s.getD (i - 1) '(' = s[i - 1] := by
      rw [List.getD_eq_getElem?_getD, List.getElem?_eq_getElem hprev]
      rfl
    rw [i2pLoop, dif_pos hi]
    simp only [hop, Bool.false_eq_true, if_false, if_neg hlp, if_neg hrp]
    rw [if_pos ⟨h1, by rw [hgd]; exact hop'⟩]
    rw [addOperator_dot]
    simp only
    rw [List.take_concat_get' s i hi]
    rw [Nat.sub_add_cancel h1]
    have := ih (i + 1) (by omega) (by omega) (by omega)
    rw [Nat.add_sub_cancel] at this
    exact this

lemma i2p_literal (s : List Char) (hne : s ≠ [])
    (hp : ∀ c ∈ s, plainChar c = true) :
    infixToPostfix s = s ++ List.replicate (s.length - 1) '.' := by
  have hn : 0 < s.length := List.length_pos.2 hne
  obtain ⟨hop, hlp, hrp⟩ := plainChar_elim (hp _ (List.getElem_mem hn))
  rw [infixToPostfix, i2pLoop, dif_pos hn]
  simp only [hop, Bool.false_eq_true, if_false, if_neg hlp, if_neg hrp]
  rw [if_neg (by omega)]
  simp only [List.nil_append]
  have h01 : ([s[0]] : List Char) = s.take 1 := by
    have := List.take_concat_get' s 0 hn
    simpa using this
  rw [h01]
  have := i2pLoop_plain_aux s hp (s.length - 1) 1 (by omega) le_rfl hn
  simpa using this

lemma parse_literals (cs : List Char) (hp : ∀ c ∈ cs, plainChar c = true) :
    ∀ (a : Arena) (ctr : Nat) (stack : List Frag) (rest : List Char),
      parsePostfixLoop a ctr stack (cs ++ rest) =
        parsePostfixLoop (a ++ litArena ctr cs) (ctr + cs.length)
          (litStackAux ctr cs stack) rest := by
  induction cs with
  | nil =>
    intro a ctr stack rest
    simp [litArena, litStackAux]
  | cons c cs ih =>
    intro a ctr stack rest
    obtain ⟨h1, h2, h3, h4, h5⟩ := plainChar_ops (hp c (by simp))
    have hp' : ∀ x ∈ cs, plainChar x = true := fun x hx => hp x (by simp [hx])
    show parsePostfixLoop a ctr stack (c :: (cs ++ rest)) = _
    have happ : applyToken a ctr stack c =
        some (a ++ [(ctr, ⟨SChar.lit c, []⟩)], ctr + 1,
          ⟨ctr, [ctr]⟩ :: stack) := by
      simp only [applyToken, if_neg h1, if_neg h2, if_neg h3, if_neg h4,
        if_neg h5, newState]
    rw [parsePostfixLoop, happ]
    show parsePostfixLoop (a ++ [(ctr, ⟨SChar.lit c, []⟩)]) (ctr + 1)
      (⟨ctr, [ctr]⟩ :: stack) (cs ++ rest) = _
    rw [ih hp']
    have ha : (a ++ [((ctr : Nat), (⟨SChar.lit c, []⟩ : St))]) ++
        litArena (ctr + 1) cs = a ++ litArena ctr (c :: cs) := by
      rw [litArena, List.append_assoc]
      rfl
    have hc : ctr + 1 + cs.length = ctr + (c :: cs).length := by
      rw [List.length_cons]; omega
    rw [ha, hc]
    rfl

lemma litArena_eq (cs : List Char) : ∀ ctr,
    litArena ctr cs = (List.range cs.length).map
      (fun i => (ctr + i, ⟨SChar.lit (cs.getD i 'a'), []⟩)) := by
  induction cs with
  | nil => intro ctr; simp [litArena]
  | cons c cs ih =>
    intro ctr
    rw [litArena, ih (ctr + 1)]
    rw [List.length_cons, List.range_succ_eq_map]
    rw [List.map_cons, List.map_map]
    refine congrArg₂ List.cons (by simp) ?_
    refine List.map_congr_left ?_
    intro i _
    simp only [Function.comp_apply, List.getD_cons_succ]
    simp only [Prod.mk.injEq]
    refine ⟨by omega, by simp⟩

lemma stackRange_shift (k : Nat) : ∀ ctr,
    stackRange ctr (k + 1) = stackRange (ctr + 1) k ++ [⟨ctr, [ctr]⟩] := by
  induction k with
  | zero => intro ctr; simp [stackRange]
  | succ k ih =>
    intro ctr
    rw [stackRange, ih ctr]
    rw [show stackRange (ctr + 1) (k + 1) =
      ⟨ctr + 1 + k, [ctr + 1 + k]⟩ :: stackRange (ctr + 1) k from rfl]
    rw [List.cons_append]
    have h : ctr + (k + 1) = ctr + 1 + k := by omega
    rw [h]

lemma litStackAux_eq (cs : List Char) : ∀ ctr st,
    litStackAux ctr cs st = stackRange ctr cs.length ++ st := by
  induction cs with
  | nil => intro ctr st; simp [litStackAux, stackRange]
  | cons c cs ih =>
    intro ctr st
    rw [litStackAux, ih (ctr + 1)]
    rw [List.length_cons, stackRange_shift]
    simp

lemma litArena_chain (s : List Char) :
    litArena 0 s = chainArena s (s.length - 1) := by
  rw [litArena_eq s 0, chainArena]
  refine List.map_congr_left ?_
  intro i hi
  rw [List.mem_range] at hi
  rw [if_neg (by omega)]
  simp

lemma setOut_chain (s : List Char) (b : Nat) (h2 : b + 2 ≤ s.length) :
    setOutA (chainArena s (b + 1)) [b] (b + 1) = chainArena s b := by
  rw [setOutA, chainArena, chainArena, List.map_map]
  refine List.map_congr_left ?_
  intro i hi
  rw [List.mem_range] at hi
  by_cases hib : i = b
  · subst hib
    have hmem : i ∈ [i] := List.mem_singleton.2 rfl
    have hcond : i ≤ i ∧ i + 1 < s.length := ⟨le_rfl, by omega⟩
    simp only [Function.comp_apply, if_pos hmem, if_pos hcond]
  · have hmem : ¬ i ∈ [b] := by simp [hib]
    have hiff : (b + 1 ≤ i ∧ i + 1 < s.length) ↔
        (b ≤ i ∧ i + 1 < s.length) := by omega
    simp only [Function.comp_apply, if_neg hmem]
    rw [if_congr hiff rfl rfl]

lemma parse_dots (s : List Char) : ∀ b, b + 1 ≤ s.length →
    parsePostfixLoop (chainArena s b) s.length
        (⟨b, [s.length - 1]⟩ :: stackRange 0 b) (List.replicate b '.') =
      some (chainArena s 0, s.length, [⟨0, [s.length - 1]⟩]) := by
  intro b
  induction b with
  | zero => intro hb; simp [parsePostfixLoop, stackRange]
  | succ b ih =>
    intro hb
    rw [List.replicate_succ]
    rw [show stackRange 0 (b + 1) = ⟨0 + b, [0 + b]⟩ :: stackRange 0 b from rfl]
    have happ : applyToken (chainArena s (b + 1)) s.length
        (⟨b + 1, [s.length - 1]⟩ :: ⟨0 + b, [0 + b]⟩ :: stackRange 0 b) '.' =
        some (setOutA (chainArena s (b + 1)) [0 + b] (b + 1), s.length,
          ⟨0 + b, [s.length - 1]⟩ :: stackRange 0 b) := by
      simp [applyToken]
    rw [parsePostfixLoop, happ]
    show parsePostfixLoop (setOutA (chainArena s (b + 1)) [0 + b] (b + 1))
      s.length (⟨0 + b, [s.length - 1]⟩ :: stackRange 0 b)
      (List.replicate b '.') = _
    simp only [Nat.zero_add]
    rw [setOut_chain s b (by omega)]
    exact ih (by omega)

lemma parse_literal_stack (s : List Char) (hne : s ≠ []) :
    litStackAux 0 s [] =
      ⟨s.length - 1, [s.length - 1]⟩ :: stackRange 0 (s.length - 1) := by
  have hn : 0 < s.length := List.length_pos.2 hne
  rw [litStackAux_eq, List.append_nil]
  rw [show s.length = (s.length - 1) + 1 by omega]
  rw [show stackRange 0 (s.length - 1 + 1) =
    ⟨0 + (s.length - 1), [0 + (s.length - 1)]⟩ :: stackRange 0 (s.length - 1)
    from rfl]
  simp

lemma setOut_final (s : List Char) (hn : 0 < s.length) :
    setOutA (chainArena s 0 ++ [(s.length, ⟨SChar.matchS, []⟩)])
        [s.length - 1] s.length = fullChain s := by
  rw [setOutA, chainArena, fullChain, List.map_append, List.map_map]
  refine congrArg₂ _ ?_ ?_
  · refine List.map_congr_left ?_
    intro i hi
    rw [List.mem_range] at hi
    by_cases hib : i = s.length - 1
    · subst hib
      have hmem : s.length - 1 ∈ [s.length - 1] := List.mem_singleton.2 rfl
      have harith : s.length - 1 + 1 = s.length := by omega
      simp only [Function.comp_apply, if_pos hmem]
      rw [harith]
    · have hmem : ¬ i ∈ [s.length - 1] := by simp [hib]
      have hcond : 0 ≤ i ∧ i + 1 < s.length := ⟨Nat.zero_le i, by omega⟩
      simp only [Function.comp_apply, if_neg hmem, if_pos hcond]
  · have hmem : ¬ s.length ∈ [s.length - 1] := by simp; omega
    simp only [List.map_cons, List.map_nil, if_neg hmem]

lemma parse_literal_full (s : List Char) (hne : s ≠ [])
    (hp : ∀ c ∈ s, plainChar c = true) :
    parseRegexSeed 0 s = some (fullChain s, 0, s.length + 1) := by
  have hn : 0 < s.length := List.length_pos.2 hne
  rw [parseRegexSeed, i2p_literal s hne hp]
  rw [parse_literals s hp [] 0 [] (List.replicate (s.length - 1) '.')]
  rw [List.nil_append, Nat.zero_add, litArena_chain, parse_literal_stack s hne]
  rw [parse_dots s (s.length - 1) (by omega)]
  simp only [newState]
  rw [setOut_final s hn]

lemma find_rangeMap_none (g : Nat → St) (m i : Nat) (h : m ≤ i) :
    List.find? (fun p => p.1 == i)
      ((List.range m).map (fun j => (j, g j))) = none := by
  rw [List.find?_eq_none]
  intro x hx
  simp only [List.mem_map, List.mem_range] at hx
  obtain ⟨j, hj, rfl⟩ := hx
  simp only [beq_eq_false_iff_ne, ne_eq, beq_iff_eq]
  omega

lemma find_rangeMap_some (g : Nat → St) : ∀ (m i : Nat), i < m →
    List.find? (fun p => p.1 == i)
      ((List.range m).map (fun j => (j, g j))) = some (i, g i) := by
  intro m
  induction m with
  | zero => intro i h; omega
  | succ m ih =>
    intro i h
    rw [List.range_succ, List.map_append, List.find?_append]
    by_cases him : i < m
    · rw [ih i him]; rfl
    · have hieq : i = m := by omega
      subst hieq
      rw [find_rangeMap_none g i i le_rfl]
      simp [List.find?]

lemma lookup_fullChain_lt (s : List Char) (i : Nat) (h : i < s.length) :
    lookupSt (fullChain s) i =
      some ⟨SChar.lit (s.getD i 'a'), [i + 1]⟩ := by
  rw [lookupSt, fullChain, List.find?_append, find_rangeMap_some _ _ i h]
  rfl

lemma lookup_fullChain_match (s : List Char) :
    lookupSt (fullChain s) s.length = some ⟨SChar.matchS, []⟩ := by
  rw [lookupSt, fullChain, List.find?_append,
    find_rangeMap_none _ _ _ le_rfl]
  simp [List.find?]

lemma addState_fullChain (s : List Char) (g i : Nat) (h : i ≤ s.length)
    (next : List Nat) :
    addState (fullChain s) (g + 1) i next = some (insertId i next) := by
  rcases Nat.lt_or_ge i s.length with hlt | hge
  · rw [addState, lookup_fullChain_lt s i hlt]
    simp
  · have hieq : i = s.length := by omega
    subst hieq
    rw [addState, lookup_fullChain_match]
    simp

lemma step_fullChain (s : List Char) (g j : Nat) (h : j ≤ s.length)
    (c : Char) :
    step (fullChain s) (g + 1) [j] c =
      some (if j < s.length ∧ c = s.getD j 'a' then [j + 1] else []) := by
  rcases Nat.lt_or_ge j s.length with hlt | hge
  · by_cases hc : s.getD j 'a' = c
    · have hcond : j < s.length ∧ c = s.getD j 'a' := ⟨hlt, hc.symm⟩
      rw [if_pos hcond]
      simp only [step, stepFold, lookup_fullChain_lt s j hlt, hc]
      rw [show addList (fullChain s) (g + 1) [j + 1] [] =
          addState (fullChain s) (g + 1) (j + 1) [] from by
        simp [addList]]
      rw [addState_fullChain s g (j + 1) (by omega) []]
      rfl
    · have hcond : ¬ (j < s.length ∧ c = s.getD j 'a') :=
        fun hh => hc hh.2.symm
      rw [if_neg hcond]
      simp only [step, stepFold, lookup_fullChain_lt s j hlt]
      have hlitne : ¬ (SChar.lit (s.getD j 'a') = SChar.lit c) := by
        simp only [SChar.lit.injEq]
        exact hc
      rw [if_neg hlitne]
  · have hieq : j = s.length := by omega
    subst hieq
    have hcond : ¬ (s.length < s.length ∧ c = s.getD s.length 'a') :=
      fun hh => absurd hh.1 (lt_irrefl _)
    rw [if_neg hcond]
    simp only [step, stepFold, lookup_fullChain_match]
    have hne : ¬ (SChar.matchS = SChar.lit c) := by simp
    rw [if_neg hne]

lemma matchRun_nilset (a : Arena) (fuel : Nat) :
    ∀ input, matchRun a fuel [] input = some [] := by
  intro input
  induction input with
  | nil => rfl
  | cons c cs ih => simp [matchRun, step, stepFold, ih]

lemma matchRun_chain (s : List Char) (g : Nat) :
    ∀ (input : List Char) (j : Nat), j ≤ s.length →
      matchRun (fullChain s) (g + 1) [j] input =
        some (if input = (s.drop j).take input.length
          then [j + input.length] else []) := by
  intro input
  induction input with
  | nil => intro j hj; simp [matchRun]
  | cons c cs ih =>
    intro j hj
    rw [matchRun, step_fullChain s g j hj c]
    by_cases hcase : j < s.length ∧ c = s.getD j 'a'
    · rw [if_pos hcase]
      obtain ⟨hlt, hc⟩ := hcase
      have hgd : s.getD j 'a' = s[j] := by
        rw [List.getD_eq_getElem?_getD, List.getElem?_eq_getElem hlt]
        rfl
      have hcj : c = s[j] := by rw [hc, hgd]
      show matchRun (fullChain s) (g + 1) [j + 1] cs = _
      rw [ih (j + 1) (by omega)]
      have hdrop : s.drop j = s[j] :: s.drop (j + 1) :=
        List.drop_eq_getElem_cons hlt
      rw [hdrop, List.length_cons, List.take_succ_cons]
      have hiff : ((c :: cs : List Char) =
          s[j] :: (s.drop (j + 1)).take cs.length) ↔
          (cs = (s.drop (j + 1)).take cs.length) := by
        rw [List.cons.injEq]
        simp [hcj]
      rw [if_congr hiff.symm rfl rfl]
      have harith : j + 1 + cs.length = j + (cs.length + 1) := by omega
      rw [harith]
    · rw [if_neg hcase]
      show matchRun (fullChain s) (g + 1) [] cs = _
      rw [matchRun_nilset]
      have hfalse : ¬ ((c :: cs : List Char) =
          (s.drop j).take (c :: cs).length) := by
        intro hpre
        rcases Nat.lt_or_ge j s.length with hlt | hge
        · have hgd : s.getD j 'a' = s[j] := by
            rw [List.getD_eq_getElem?_getD, List.getElem?_eq_getElem hlt]
            rfl
          rw [List.drop_eq_getElem_cons hlt, List.length_cons,
            List.take_succ_cons, List.cons.injEq] at hpre
          exact hcase ⟨hlt, by rw [hgd, hpre.1]⟩
        · rw [List.drop_eq_nil_of_le hge] at hpre
          simp at hpre
      rw [if_neg hfalse]

/-- C7: a non-empty pattern containing no operator characters
(`|`, `*`, `+`, `?`, `(`, `)`, `.`) compiles to a chain NFA and
matches an input if and only if the input equals the pattern. -/
theorem c7_literal_patterns (s input : List Char) (g : Nat) (hne : s ≠ [])
    (hp : ∀ c ∈ s, plainChar c = true) :
    matchStr (g + 1) input s = Except.ok (decide (input = s)) := by
  have hn : 0 < s.length := List.length_pos.2 hne
  simp only [matchStr, matchStrSeed, parse_literal_full s hne hp]
  rw [addState_fullChain s g 0 (by omega) []]
  rw [show insertId 0 [] = [0] from rfl]
  show runOutcome (fullChain s) (g + 1) [0] input = _
  simp only [runOutcome]
  rw [matchRun_chain s g input 0 (by omega)]
  rw [List.drop_zero, Nat.zero_add]
  by_cases his : input = s
  · subst his
    have hcond : input = input.take input.length :=
      (List.take_length input).symm
    rw [if_pos hcond]
    show Except.ok ([input.length].any (isMatchState (fullChain input))) = _
    have hms : isMatchState (fullChain input) input.length = true := by
      simp [isMatchState, lookup_fullChain_match]
    simp [hms]
  · by_cases hpre : input = s.take input.length
    · have hlen : input.length ≤ s.length := by
        have hh := congrArg List.length hpre
        rw [List.length_take] at hh
        omega
      have hlt : input.length < s.length := by
        rcases Nat.lt_or_ge input.length s.length with hq | hq
        · exact hq
        · exact absurd (hpre.trans (List.take_of_length_le hq)) his
      rw [if_pos hpre]
      show Except.ok ([input.length].any (isMatchState (fullChain s))) = _
      have hms : isMatchState (fullChain s) input.length = false := by
        simp [isMatchState, lookup_fullChain_lt s input.length hlt]
      simp [hms, his]
    · rw [if_neg hpre]
      show Except.ok (([] : List Nat).any (isMatchState (fullChain s))) = _
      simp [his]

/-- Witness for C7 at a concrete instance: the literal pattern `ab`
matches the input `ab`. -/
theorem c7_literal_patterns_witness :
    matchStr 1 ['a', 'b'] ['a', 'b'] = Except.ok true := by
  have h := c7_literal_patterns ['a', 'b'] ['a', 'b'] 0 (by decide) (by decide)
  simpa using h

/-! ## C10: determinism — independence from the global id counter -/

lemma addState_unfold (a : Arena) (fuel : Nat) (s : Nat) (next : List Nat) :
    addState a (fuel + 1) s next =
      match lookupSt a s with
      | none => none
      | some st =>
        if st.c = SChar.splitS then addList a fuel st.out next
        else some (insertId s next) := rfl

lemma addList_nil (a : Arena) (fuel : Nat) (next : List Nat) :
    addList a fuel [] next = some next := rfl

lemma addList_cons (a : Arena) (fuel o : Nat) (os : List Nat)
    (next : List Nat) :
    addList a fuel (o :: os) next =
      match addState a fuel o next with
      | none => none
      | some next' => addList a fuel os next' := by
  rw [addList, List.foldlM_cons]
  cases addState a fuel o next with
  | none => rfl
  | some next' => rfl

lemma addState_lookup_none (a : Arena) (fuel i : Nat) (next : List Nat)
    (h : lookupSt a i = none) : addState a (fuel + 1) i next = none := by
  rw [addState_unfold, h]

lemma addState_split (a : Arena) (fuel i : Nat) (next : List Nat) (st : St)
    (h : lookupSt a i = some st) (hsp : st.c = SChar.splitS) :
    addState a (fuel + 1) i next = addList a fuel st.out next := by
  rw [addState_unfold, h]
  simp [hsp, addList]

lemma addState_nonsplit (a : Arena) (fuel i : Nat) (next : List Nat) (st : St)
    (h : lookupSt a i = some st) (hsp : ¬ st.c = SChar.splitS) :
    addState a (fuel + 1) i next = some (insertId i next) := by
  rw [addState_unfold, h]
  simp [hsp]

lemma mem_insertId (x y : Nat) (l : List Nat) :
    x ∈ insertId y l ↔ x ∈ l ∨ x = y := by
  rw [insertId]
  by_cases h : y ∈ l
  · rw [if_pos h]
    constructor
    · exact Or.inl
    · rintro (hx | rfl)
      · exact hx
      · exact h
  · rw [if_neg h]
    simp [List.mem_append]

lemma lookup_shift (a : Arena) (d i : Nat) :
    lookupSt (shiftArena d a) (i + d) = (lookupSt a i).map (shiftSt d) := by
  rw [lookupSt, shiftArena, List.find?_map]
  have hpred : ((fun p => p.1 == i + d) ∘
      (fun p : Nat × St => (p.1 + d, shiftSt d p.2))) =
      (fun p : Nat × St => p.1 == i) := by
    funext p
    simp only [Function.comp_apply]
    by_cases h : p.1 = i
    · simp [h]
    · have h2 : ¬ (p.1 + d = i + d) := fun hh => h (Nat.add_right_cancel hh)
      simp [h, h2]
  rw [hpred, lookupSt, Option.map_map, Option.map_map]
  rfl

lemma insertId_shift (d x : Nat) (l : List Nat) :
    insertId (x + d) (l.map (· + d)) = (insertId x l).map (· + d) := by
  rw [insertId, insertId]
  by_cases h : x ∈ l
  · rw [if_pos h, if_pos (List.mem_map.2 ⟨x, h, rfl⟩)]
  · have h2 : ¬ x + d ∈ l.map (· + d) := by
      intro hm
      obtain ⟨y, hy, hye⟩ := List.mem_map.1 hm
      have hyx : y = x := Nat.add_right_cancel hye
      exact h (hyx ▸ hy)
    rw [if_neg h, if_neg h2, List.map_append]
    rfl

lemma setOutA_shift (a : Arena) (d : Nat) (outs : List Nat) (t : Nat) :
    setOutA (shiftArena d a) (outs.map (· + d)) (t + d) =
      shiftArena d (setOutA a outs t) := by
  rw [setOutA, shiftArena, shiftArena, setOutA, List.map_map, List.map_map]
  refine List.map_congr_left ?_
  intro p _
  simp only [Function.comp_apply]
  by_cases h : p.1 ∈ outs
  · rw [if_pos (List.mem_map.2 ⟨p.1, h, rfl⟩), if_pos h]
    rfl
  · have h2 : ¬ p.1 + d ∈ outs.map (· + d) := by
      intro hm
      obtain ⟨y, hy, hye⟩ := List.mem_map.1 hm
      have hyx : y = p.1 := Nat.add_right_cancel hye
      exact h (hyx ▸ hy)
    rw [if_neg h2, if_neg h]

lemma addState_shift (a : Arena) (d : Nat) : ∀ (fuel : Nat),
    (∀ (i : Nat) (next : List Nat),
      addState (shiftArena d a) fuel (i + d) (next.map (· + d)) =
        (addState a fuel i next).map (List.map (· + d))) ∧
    (∀ (outs next : List Nat),
      addList (shiftArena d a) fuel (outs.map (· + d)) (next.map (· + d)) =
        (addList a fuel outs next).map (List.map (· + d))) := by
  intro fuel
  induction fuel with
  | zero =>
    refine ⟨fun i next => rfl, fun outs next => ?_⟩
    cases outs <;> rfl
  | succ f ih =>
    have hAS : ∀ (i : Nat) (next : List Nat),
        addState (shiftArena d a) (f + 1) (i + d) (next.map (· + d)) =
          (addState a (f + 1) i next).map (List.map (· + d)) := by
      intro i next
      cases h : lookupSt a i with
      | none =>
        have h2 : lookupSt (shiftArena d a) (i + d) = none := by
          rw [lookup_shift, h]; rfl
        rw [addState_lookup_none a f i next h,
          addState_lookup_none (shiftArena d a) f (i + d) (next.map (· + d)) h2]
        rfl
      | some st =>
        have h2 : lookupSt (shiftArena d a) (i + d) = some (shiftSt d st) := by
          rw [lookup_shift, h]; rfl
        by_cases hsp : st.c = SChar.splitS
        · have hsp2 : (shiftSt d st).c = SChar.splitS := hsp
          rw [addState_split a f i next st h hsp,
            addState_split (shiftArena d a) f (i + d) (next.map (· + d))
              (shiftSt d st) h2 hsp2]
          exact ih.2 st.out next
        · have hsp2 : ¬ (shiftSt d st).c = SChar.splitS := hsp
          rw [addState_nonsplit a f i next st h hsp,
            addState_nonsplit (shiftArena d a) f (i + d) (next.map (· + d))
              (shiftSt d st) h2 hsp2]
          rw [insertId_shift]
          rfl
    refine ⟨hAS, ?_⟩
    intro outs
    induction outs with
    | nil => intro next; rfl
    | cons o os ihl =>
      intro next
      rw [List.map_cons, addList_cons, addList_cons, hAS o next]
      cases h : addState a (f + 1) o next with
      | none => rfl
      | some next' =>
        simp only [Option.map_some']
        exact ihl next'

lemma stepFold_shift (a : Arena) (d fuel : Nat) (char : Char) :
    ∀ (states next : List Nat),
      stepFold (shiftArena d a) fuel char (states.map (· + d))
          (next.map (· + d)) =
        (stepFold a fuel char states next).map (List.map (· + d)) := by
  intro states
  induction states with
  | nil => intro next; rfl
  | cons s ss ih =>
    intro next
    rw [List.map_cons, stepFold, stepFold, lookup_shift]
    cases h : lookupSt a s with
    | none => rfl
    | some st =>
      simp only [Option.map_some', shiftSt]
      by_cases hc : st.c = SChar.lit char
      · rw [if_pos hc, if_pos hc]
        rw [show addList (shiftArena d a) fuel (st.out.map (· + d))
            (next.map (· + d)) =
            (addList a fuel st.out next).map (List.map (· + d)) from
          (addState_shift a d fuel).2 st.out next]
        cases h2 : addList a fuel st.out next with
        | none => rfl
        | some next' =>
          simp only [Option.map_some']
          exact ih next'
      · rw [if_neg hc, if_neg hc]
        exact ih next

lemma matchRun_shift (a : Arena) (d fuel : Nat) :
    ∀ (input : List Char) (states : List Nat),
      matchRun (shiftArena d a) fuel (states.map (· + d)) input =
        (matchRun a fuel states input).map (List.map (· + d)) := by
  intro input
  induction input with
  | nil => intro states; rfl
  | cons c cs ih =>
    intro states
    rw [matchRun, matchRun]
    rw [show step (shiftArena d a) fuel (states.map (· + d)) c =
        (step a fuel states c).map (List.map (· + d)) from by
      rw [step, step]
      have h := stepFold_shift a d fuel c states []
      simpa using h]
    cases h : step a fuel states c with
    | none => rfl
    | some states' =>
      simp only [Option.map_some']
      exact ih states'

lemma isMatchState_shift (a : Arena) (d s : Nat) :
    isMatchState (shiftArena d a) (s + d) = isMatchState a s := by
  rw [isMatchState, isMatchState, lookup_shift]
  cases lookupSt a s with
  | none => rfl
  | some st => rfl

lemma runOutcome_shift (a : Arena) (d fuel : Nat) (states : List Nat)
    (input : List Char) :
    runOutcome (shiftArena d a) fuel (states.map (· + d)) input =
      runOutcome a fuel states input := by
  rw [runOutcome, runOutcome, matchRun_shift]
  cases h : matchRun a fuel states input with
  | none => rfl
  | some fin =>
    simp only [Option.map_some']
    refine congrArg Except.ok ?_
    rw [List.any_map]
    have hfun : (isMatchState (shiftArena d a) ∘ (· + d)) = isMatchState a := by
      funext x
      exact isMatchState_shift a d x
    rw [hfun]

lemma applyToken_shift (a : Arena) (d ctr : Nat) (stack : List Frag)
    (ch : Char) :
    applyToken (shiftArena d a) (ctr + d) (stack.map (shiftFrag d)) ch =
      (applyToken a ctr stack ch).map
        (fun r => (shiftArena d r.1, r.2.1 + d, r.2.2.map (shiftFrag d))) := by
  have harr : ∀ (c : SChar) (outs outs' : List Nat),
      outs' = outs.map (· + d) →
      shiftArena d a ++ [(ctr + d, ⟨c, outs'⟩)] =
        shiftArena d (a ++ [(ctr, ⟨c, outs⟩)]) := by
    intro c outs outs' h
    subst h
    rw [shiftArena, shiftArena, List.map_append]
    rfl
  by_cases h1 : ch = '.'
  · subst h1
    rcases stack with _ | ⟨f2, _ | ⟨f1, st⟩⟩
    · rfl
    · rfl
    · show some (setOutA (shiftArena d a) (f1.out_states.map (· + d))
          (f2.start + d), ctr + d,
          (⟨f1.start + d, f2.out_states.map (· + d)⟩ : Frag) ::
            st.map (shiftFrag d)) =
        some (shiftArena d (setOutA a f1.out_states f2.start), ctr + d,
          (⟨f1.start + d, f2.out_states.map (· + d)⟩ : Frag) ::
            st.map (shiftFrag d))
      rw [setOutA_shift]
  · by_cases h2 : ch = '+'
    · subst h2
      rcases stack with _ | ⟨f, st⟩
      · rfl
      · show some (shiftArena d a ++
            [(ctr + d, ⟨SChar.splitS, [f.start + d]⟩)], ctr + d + 1,
            (⟨f.start + d, [ctr + d]⟩ : Frag) :: st.map (shiftFrag d)) =
          some (shiftArena d (a ++ [(ctr, ⟨SChar.splitS, [f.start]⟩)]),
            ctr + 1 + d,
            (⟨f.start + d, [ctr + d]⟩ : Frag) :: st.map (shiftFrag d))
        rw [harr SChar.splitS [f.start] [f.start + d] rfl]
        rw [show ctr + d + 1 = ctr + 1 + d from by omega]
    · by_cases h3 : ch = '?'
      · subst h3
        rcases stack with _ | ⟨f, st⟩
        · rfl
        · show some (shiftArena d a ++
              [(ctr + d, ⟨SChar.splitS, [f.start + d]⟩)], ctr + d + 1,
              (⟨ctr + d, (ctr + d) :: f.out_states.map (· + d)⟩ : Frag) ::
                st.map (shiftFrag d)) =
            some (shiftArena d (a ++ [(ctr, ⟨SChar.splitS, [f.start]⟩)]),
              ctr + 1 + d,
              (⟨ctr + d, (ctr + d) :: f.out_states.map (· + d)⟩ : Frag) ::
                st.map (shiftFrag d))
          rw [harr SChar.splitS [f.start] [f.start + d] rfl]
          rw [show ctr + d + 1 = ctr + 1 + d from by omega]
      · by_cases h4 : ch = '*'
        · subst h4
          rcases stack with _ | ⟨f, st⟩
          · rfl
          · show some (setOutA (shiftArena d a ++
                [(ctr + d, ⟨SChar.splitS, [f.start + d]⟩)])
                (f.out_states.map (· + d)) (ctr + d), ctr + d + 1,
                (⟨ctr + d, [ctr + d]⟩ : Frag) :: st.map (shiftFrag d)) =
              some (shiftArena d (setOutA
                (a ++ [(ctr, ⟨SChar.splitS, [f.start]⟩)]) f.out_states ctr),
                ctr + 1 + d,
                (⟨ctr + d, [ctr + d]⟩ : Frag) :: st.map (shiftFrag d))
            rw [harr SChar.splitS [f.start] [f.start + d] rfl, setOutA_shift]
            rw [show ctr + d + 1 = ctr + 1 + d from by omega]
        · by_cases h5 : ch = '|'
          · subst h5
            rcases stack with _ | ⟨f2, _ | ⟨f1, st⟩⟩
            · rfl
            · rfl
            · show some (shiftArena d a ++
                  [(ctr + d, ⟨SChar.splitS, [f1.start + d, f2.start + d]⟩)],
                  ctr + d + 1,
                  (⟨ctr + d, f1.out_states.map (· + d) ++
                    f2.out_states.map (· + d)⟩ : Frag) ::
                    st.map (shiftFrag d)) =
                some (shiftArena d (a ++
                  [(ctr, ⟨SChar.splitS, [f1.start, f2.start]⟩)]),
                  ctr + 1 + d,
                  (⟨ctr + d, (f1.out_states ++ f2.out_states).map (· + d)⟩ :
                    Frag) :: st.map (shiftFrag d))
              rw [harr SChar.splitS [f1.start, f2.start]
                [f1.start + d, f2.start + d] rfl]
              rw [show ctr + d + 1 = ctr + 1 + d from by omega,
                List.map_append]
          · have hL : applyToken (shiftArena d a) (ctr + d)
                (stack.map (shiftFrag d)) ch =
                some (shiftArena d a ++ [(ctr + d, ⟨SChar.lit ch, []⟩)],
                  ctr + d + 1,
                  (⟨ctr + d, [ctr + d]⟩ : Frag) :: stack.map (shiftFrag d)) := by
              simp only [applyToken, if_neg h1, if_neg h2, if_neg h3,
                if_neg h4, if_neg h5, newState]
            have hR : applyToken a ctr stack ch =
                some (a ++ [(ctr, ⟨SChar.lit ch, []⟩)], ctr + 1,
                  (⟨ctr, [ctr]⟩ : Frag) :: stack) := by
              simp only [applyToken, if_neg h1, if_neg h2, if_neg h3,
                if_neg h4, if_neg h5, newState]
            rw [hL, hR]
            simp only [Option.map_some']
            refine congrArg some ?_
            refine congrArg₂ Prod.mk ?_ ?_
            · exact harr (SChar.lit ch) [] [] rfl
            · refine congrArg₂ Prod.mk (by omega) rfl


lemma parsePostfixLoop_shift (d : Nat) :
    ∀ (toks : List Char) (a : Arena) (ctr : Nat) (stack : List Frag),
      parsePostfixLoop (shiftArena d a) (ctr + d) (stack.map (shiftFrag d))
          toks =
        (parsePostfixLoop a ctr stack toks).map
          (fun r => (shiftArena d r.1, r.2.1 + d,
            r.2.2.map (shiftFrag d))) := by
  intro toks
  induction toks with
  | nil => intro a ctr stack; rfl
  | cons ch rest ih =>
    intro a ctr stack
    rw [parsePostfixLoop, parsePostfixLoop, applyToken_shift]
    cases happ : applyToken a ctr stack ch with
    | none => rfl
    | some r =>
      obtain ⟨a', ctr', stack'⟩ := r
      simp only [Option.map_some']
      exact ih a' ctr' stack'

lemma parseRegexSeed_shift (seed : Nat) (regex : List Char) :
    parseRegexSeed seed regex = (parseRegexSeed 0 regex).map
      (fun r => (shiftArena seed r.1, r.2.1 + seed, r.2.2 + seed)) := by
  rw [parseRegexSeed, parseRegexSeed]
  have h := parsePostfixLoop_shift seed (infixToPostfix regex) [] 0 []
  rw [show shiftArena seed ([] : Arena) = [] from rfl] at h
  rw [show (([] : List Frag).map (shiftFrag seed)) = [] from rfl] at h
  rw [Nat.zero_add] at h
  rw [h]
  cases hp : parsePostfixLoop [] 0 [] (infixToPostfix regex) with
  | none => rfl
  | some r =>
    obtain ⟨a, ctr, stack⟩ := r
    rcases stack with _ | ⟨f, _ | ⟨g, st⟩⟩
    · rfl
    · simp only [Option.map_some', List.map_cons, List.map_nil]
      show some (setOutA (shiftArena seed a ++
          [(ctr + seed, ⟨SChar.matchS, []⟩)])
          (f.out_states.map (· + seed)) (ctr + seed),
          f.start + seed, ctr + seed + 1) = _
      rw [show shiftArena seed a ++ [(ctr + seed, ⟨SChar.matchS, []⟩)] =
          shiftArena seed (a ++ [(ctr, ⟨SChar.matchS, []⟩)]) from by
        rw [shiftArena, shiftArena, List.map_append]; rfl]
      rw [setOutA_shift]
      refine congrArg some ?_
      refine congrArg₂ Prod.mk rfl ?_
      refine congrArg₂ Prod.mk rfl (by simp only [newState]; omega)
    · rfl

lemma matchStrSeed_shift (seed fuel : Nat) (input regex : List Char) :
    matchStrSeed seed fuel input regex = matchStrSeed 0 fuel input regex := by
  rw [matchStrSeed, matchStrSeed, parseRegexSeed_shift seed regex]
  cases h : parseRegexSeed 0 regex with
  | none => rfl
  | some r =>
    obtain ⟨a, start, ctr⟩ := r
    simp only [Option.map_some']
    show (match addState (shiftArena seed a) fuel (start + seed) [] with
      | none => Except.error MErr.fuelErr
      | some init => runOutcome (shiftArena seed a) fuel init input) = _
    rw [show addState (shiftArena seed a) fuel (start + seed) [] =
        (addState a fuel start []).map (List.map (· + seed)) from by
      have h2 := (addState_shift a seed fuel).1 start []
      simpa using h2]
    cases h2 : addState a fuel start [] with
    | none => rfl
    | some init =>
      simp only [Option.map_some']
      exact runOutcome_shift a seed fuel init input

/-! ## C10: determinism — independence from set iteration order -/

lemma addState_canon (a : Arena) : ∀ (fuel : Nat),
    (∀ (i : Nat) (next : List Nat),
      (addState a fuel i next = none ↔ addState a fuel i [] = none) ∧
      ∀ r, addState a fuel i next = some r →
        ∃ r₀, addState a fuel i [] = some r₀ ∧
          ∀ x, x ∈ r ↔ x ∈ next ∨ x ∈ r₀) ∧
    (∀ (outs next : List Nat),
      (addList a fuel outs next = none ↔ addList a fuel outs [] = none) ∧
      ∀ r, addList a fuel outs next = some r →
        ∃ r₀, addList a fuel outs [] = some r₀ ∧
          ∀ x, x ∈ r ↔ x ∈ next ∨ x ∈ r₀) := by
  intro fuel
  induction fuel with
  | zero =>
    refine ⟨fun i next => ⟨Iff.rfl, fun r hr => Option.noConfusion hr⟩,
      fun outs next => ?_⟩
    cases outs with
    | nil =>
      refine ⟨by simp [addList_nil], fun r hr => ?_⟩
      rw [addList_nil] at hr
      obtain rfl := Option.some.inj hr
      exact ⟨[], rfl, fun x => by simp⟩
    | cons o os =>
      exact ⟨Iff.rfl, fun r hr => Option.noConfusion hr⟩
  | succ f ih =>
    have hAS : ∀ (i : Nat) (next : List Nat),
        (addState a (f + 1) i next = none ↔
          addState a (f + 1) i [] = none) ∧
        ∀ r, addState a (f + 1) i next = some r →
          ∃ r₀, addState a (f + 1) i [] = some r₀ ∧
            ∀ x, x ∈ r ↔ x ∈ next ∨ x ∈ r₀ := by
      intro i next
      cases h : lookupSt a i with
      | none =>
        rw [addState_lookup_none a f i next h,
          addState_lookup_none a f i [] h]
        exact ⟨Iff.rfl, fun r hr => Option.noConfusion hr⟩
      | some st =>
        by_cases hsp : st.c = SChar.splitS
        · rw [addState_split a f i next st h hsp,
            addState_split a f i [] st h hsp]
          exact ih.2 st.out next
        · rw [addState_nonsplit a f i next st h hsp,
            addState_nonsplit a f i [] st h hsp]
          refine ⟨by simp, fun r hr => ?_⟩
          obtain rfl := Option.some.inj hr
          refine ⟨insertId i [], rfl, fun x => ?_⟩
          rw [mem_insertId, mem_insertId]
          simp
    refine ⟨hAS, ?_⟩
    intro outs
    induction outs with
    | nil =>
      intro next
      refine ⟨by simp [addList_nil], fun r hr => ?_⟩
      rw [addList_nil] at hr
      obtain rfl := Option.some.inj hr
      exact ⟨[], rfl, fun x => by simp⟩
    | cons o os ihl =>
      intro next
      rw [addList_cons, addList_cons]
      cases h1 : addState a (f + 1) o next with
      | none =>
        have h2 : addState a (f + 1) o [] = none := (hAS o next).1.mp h1
        rw [h2]
        exact ⟨Iff.rfl, fun r hr => Option.noConfusion hr⟩
      | some n' =>
        obtain ⟨c₀, hc₀, hmem⟩ := (hAS o next).2 n' h1
        rw [hc₀]
        show (addList a (f + 1) os n' = none ↔
            addList a (f + 1) os c₀ = none) ∧
          ∀ r, addList a (f + 1) os n' = some r →
            ∃ r₀, addList a (f + 1) os c₀ = some r₀ ∧
              ∀ x, x ∈ r ↔ x ∈ next ∨ x ∈ r₀
        refine ⟨(ihl n').1.trans (ihl c₀).1.symm, fun r hr => ?_⟩
        obtain ⟨r₀, hr₀, hmr⟩ := (ihl n').2 r hr
        cases h' : addList a (f + 1) os c₀ with
        | none =>
          exact absurd ((ihl c₀).1.mp h') (by simp [hr₀])
        | some rc =>
          obtain ⟨r₀', hr₀', hmrc⟩ := (ihl c₀).2 rc h'
          rw [hr₀'] at hr₀
          obtain rfl := Option.some.inj hr₀
          refine ⟨rc, rfl, fun x => ?_⟩
          have h1x := hmr x
          have h2x := hmrc x
          have h3x := hmem x
          tauto

lemma stepFold_none_char (a : Arena) (fuel : Nat) (char : Char) :
    ∀ (states next : List Nat),
      stepFold a fuel char states next = none ↔
        ∃ s ∈ states, lookupSt a s = none ∨
          ∃ st, lookupSt a s = some st ∧ st.c = SChar.lit char ∧
            addList a fuel st.out [] = none := by
  intro states
  induction states with
  | nil =>
    intro next
    simp [stepFold]
  | cons s ss ih =>
    intro next
    rw [stepFold]
    cases h : lookupSt a s with
    | none =>
      exact ⟨fun _ => ⟨s, by simp, Or.inl h⟩, fun _ => rfl⟩
    | some st =>
      show (if st.c = SChar.lit char then
          match addList a fuel st.out next with
          | none => none
          | some next' => stepFold a fuel char ss next'
        else stepFold a fuel char ss next) = none ↔ _
      by_cases hc : st.c = SChar.lit char
      · rw [if_pos hc]
        cases h2 : addList a fuel st.out next with
        | none =>
          have h3 : addList a fuel st.out [] = none :=
            ((addState_canon a fuel).2 st.out next).1.mp h2
          exact ⟨fun _ => ⟨s, by simp, Or.inr ⟨st, h, hc, h3⟩⟩, fun _ => rfl⟩
        | some n' =>
          rw [ih n']
          have h3 : ¬ addList a fuel st.out [] = none := by
            intro hcontra
            have h4 := ((addState_canon a fuel).2 st.out next).1.mpr hcontra
            rw [h2] at h4
            exact Option.noConfusion h4
          constructor
          · rintro ⟨s', hs', hbad⟩
            exact ⟨s', by simp [hs'], hbad⟩
          · rintro ⟨s', hs', hbad⟩
            rcases List.mem_cons.1 hs' with rfl | hs''
            · rcases hbad with hbad | ⟨st', hst', hlit', hnone'⟩
              · rw [h] at hbad
                exact Option.noConfusion hbad
              · rw [h] at hst'
                obtain rfl := Option.some.inj hst'
                exact absurd hnone' h3
            · exact ⟨s', hs'', hbad⟩
      · rw [if_neg hc, ih next]
        constructor
        · rintro ⟨s', hs', hbad⟩
          exact ⟨s', by simp [hs'], hbad⟩
        · rintro ⟨s', hs', hbad⟩
          rcases List.mem_cons.1 hs' with rfl | hs''
          · rcases hbad with hbad | ⟨st', hst', hlit', hnone'⟩
            · rw [h] at hbad
              exact Option.noConfusion hbad
            · rw [h] at hst'
              obtain rfl := Option.some.inj hst'
              exact absurd hlit' hc
          · exact ⟨s', hs'', hbad⟩

lemma stepFold_mem_char (a : Arena) (fuel : Nat) (char : Char) :
    ∀ (states next r : List Nat),
      stepFold a fuel char states next = some r →
      ∀ x, x ∈ r ↔ x ∈ next ∨ ∃ s ∈ states, ∃ st,
        lookupSt a s = some st ∧ st.c = SChar.lit char ∧
        ∃ cl, addList a fuel st.out [] = some cl ∧ x ∈ cl := by
  intro states
  induction states with
  | nil =>
    intro next r hr x
    rw [stepFold] at hr
    obtain rfl := Option.some.inj hr
    simp
  | cons s ss ih =>
    intro next r hr x
    rw [stepFold] at hr
    cases h : lookupSt a s with
    | none =>
      rw [h] at hr
      exact Option.noConfusion hr
    | some st =>
      rw [h] at hr
      have hr' : (if st.c = SChar.lit char then
          match addList a fuel st.out next with
          | none => none
          | some next' => stepFold a fuel char ss next'
        else stepFold a fuel char ss next) = some r := hr
      by_cases hc : st.c = SChar.lit char
      · rw [if_pos hc] at hr'
        cases h2 : addList a fuel st.out next with
        | none =>
          rw [h2] at hr'
          exact Option.noConfusion hr'
        | some n' =>
          rw [h2] at hr'
          have hr'' : stepFold a fuel char ss n' = some r := hr'
          have hx := ih n' r hr'' x
          obtain ⟨c₀, hc₀, hmm⟩ :=
            ((addState_canon a fuel).2 st.out next).2 n' h2
          rw [hx]
          constructor
          · rintro (hn | ⟨s', hs', rest⟩)
            · rcases (hmm x).1 hn with hnext | hc0
              · exact Or.inl hnext
              · exact Or.inr ⟨s, by simp, st, h, hc, c₀, hc₀, hc0⟩
            · exact Or.inr ⟨s', by simp [hs'], rest⟩
          · rintro (hnext | ⟨s', hs', st', hst', hlit', cl, hcl, hxcl⟩)
            · exact Or.inl ((hmm x).2 (Or.inl hnext))
            · rcases List.mem_cons.1 hs' with rfl | hs''
              · rw [h] at hst'
                obtain rfl := Option.some.inj hst'
                rw [hc₀] at hcl
                obtain rfl := Option.some.inj hcl
                exact Or.inl ((hmm x).2 (Or.inr hxcl))
              · exact Or.inr ⟨s', hs'', st', hst', hlit', cl, hcl, hxcl⟩
      · rw [if_neg hc] at hr'
        have hx := ih next r hr' x
        rw [hx]
        constructor
        · rintro (hnext | ⟨s', hs', rest⟩)
          · exact Or.inl hnext
          · exact Or.inr ⟨s', by simp [hs'], rest⟩
        · rintro (hnext | ⟨s', hs', st', hst', hlit', rest⟩)
          · exact Or.inl hnext
          · rcases List.mem_cons.1 hs' with rfl | hs''
            · rw [h] at hst'
              obtain rfl := Option.some.inj hst'
              exact absurd hlit' hc
            · exact Or.inr ⟨s', hs'', st', hst', hlit', rest⟩

lemma step_equiv_none (a : Arena) (fuel : Nat) (char : Char)
    (states states' : List Nat) (hss : ∀ x, x ∈ states ↔ x ∈ states') :
    step a fuel states char = none ↔ step a fuel states' char = none := by
  rw [step, step, stepFold_none_char a fuel char states [],
    stepFold_none_char a fuel char states' []]
  constructor
  · rintro ⟨s, hs, hbad⟩
    exact ⟨s, (hss s).1 hs, hbad⟩
  · rintro ⟨s, hs, hbad⟩
    exact ⟨s, (hss s).2 hs, hbad⟩

lemma step_equiv_mem (a : Arena) (fuel : Nat) (char : Char)
    (states states' r r' : List Nat)
    (hss : ∀ x, x ∈ states ↔ x ∈ states')
    (h1 : step a fuel states char = some r)
    (h2 : step a fuel states' char = some r') :
    ∀ x, x ∈ r ↔ x ∈ r' := by
  intro x
  rw [step] at h1 h2
  rw [stepFold_mem_char a fuel char states [] r h1 x,
    stepFold_mem_char a fuel char states' [] r' h2 x]
  simp only [List.not_mem_nil, false_or]
  constructor
  · rintro ⟨s, hs, rest⟩
    exact ⟨s, (hss s).1 hs, rest⟩
  · rintro ⟨s, hs, rest⟩
    exact ⟨s, (hss s).2 hs, rest⟩

lemma runOutcome_equiv (a : Arena) (fuel : Nat) :
    ∀ (input : List Char) (states states' : List Nat),
      (∀ x, x ∈ states ↔ x ∈ states') →
      runOutcome a fuel states input = runOutcome a fuel states' input := by
  intro input
  induction input with
  | nil =>
    intro states states' hss
    show Except.ok (states.any (isMatchState a)) =
      Except.ok (states'.any (isMatchState a))
    refine congrArg Except.ok ?_
    have hiff : (states.any (isMatchState a) = true) ↔
        (states'.any (isMatchState a) = true) := by
      rw [List.any_eq_true, List.any_eq_true]
      constructor
      · rintro ⟨x, hx, hpx⟩
        exact ⟨x, (hss x).1 hx, hpx⟩
      · rintro ⟨x, hx, hpx⟩
        exact ⟨x, (hss x).2 hx, hpx⟩
    cases hA : states.any (isMatchState a) <;>
      cases hB : states'.any (isMatchState a)
    · rfl
    · exact absurd (hiff.2 hB) (by simp [hA])
    · exact absurd (hiff.1 hA) (by simp [hB])
    · rfl
  | cons c cs ih =>
    intro states states' hss
    rw [runOutcome, runOutcome, matchRun, matchRun]
    cases h1 : step a fuel states c with
    | none =>
      have h2 : step a fuel states' c = none :=
        (step_equiv_none a fuel c states states' hss).1 h1
      rw [h2]
    | some r =>
      cases h2 : step a fuel states' c with
      | none =>
        have h1' : step a fuel states c = none :=
          (step_equiv_none a fuel c states states' hss).2 h2
        rw [h1'] at h1
        exact Option.noConfusion h1
      | some r' =>
        have hrr := step_equiv_mem a fuel c states states' r r' hss h1 h2
        show runOutcome a fuel r cs = runOutcome a fuel r' cs
        exact ih r r' hrr

/-- C10: matching is deterministic.  First conjunct: the boolean (or
error) outcome of `match_str` does not depend on the starting value
of the global state-id counter, so two successive calls (the second
running with whatever counter value the first left behind) return
the same result.  Second conjunct: the simulation outcome depends on
the live state set only through its membership, not on the order in
which the set is iterated. -/
theorem c10_deterministic :
    (∀ seed1 seed2 fuel : Nat, ∀ input regex : List Char,
      matchStrSeed seed1 fuel input regex =
        matchStrSeed seed2 fuel input regex) ∧
    (∀ (a : Arena) (fuel : Nat) (input : List Char)
      (states states' : List Nat),
      (∀ x, x ∈ states ↔ x ∈ states') →
      runOutcome a fuel states input = runOutcome a fuel states' input) := by
  constructor
  · intro s1 s2 fuel input regex
    rw [matchStrSeed_shift s1, matchStrSeed_shift s2]
  · intro a fuel input states states' hss
    exact runOutcome_equiv a fuel input states states' hss

/-- Witness for C10 at concrete instances: the counter seed does not
change the result of matching `a` against `ab`, and iterating the
state set `[5, 0]` in the other order `[0, 5]` gives the same
outcome. -/
theorem c10_deterministic_witness :
    matchStrSeed 7 3 ['a'] ['a', 'b'] = matchStrSeed 0 3 ['a'] ['a', 'b'] ∧
    runOutcome cycleArena 2 [5, 0] ['a'] =
      runOutcome cycleArena 2 [0, 5] ['a'] :=
  ⟨c10_deterministic.1 7 0 3 ['a'] ['a', 'b'],
   c10_deterministic.2 cycleArena 2 ['a'] [5, 0] [0, 5]
     (by intro x; simp [List.mem_cons]; tauto)⟩

end RegexSpec
